import Mathlib

/-!
Verification of the rocketviewer telemetry core.

Producer side (src/Arduino Projects/SendSerialData/SendSerialData.ino):
a loop that updates a global quaternion q1 via quat_t.setRotation from
the external Arduino library quaternion_type.h, serializes it with
Serial.print / Serial.println as a one-line JSON record, increments a
float counter i, and delays 10 ms.

Consumer side (the Rust viewer named by the README) is not under src/;
its Streaming Frame Reader and Frame Decoder are modelled from the spec.

Floats of the sketch are modelled as real numbers for the orientation
arithmetic, as rationals for the wire format, and the 32-bit float
counter i is modelled exactly (round-to-nearest-even on integer values).
-/

namespace RocketViewer

/-! ## Characters and decimal digits (wire level, computable) -/

/-- One decimal digit as a character; total, digits above 9 map to q
(never reached where used, every call site has a bound below 10). -/
def digChar (d : Nat) : Char :=
  match d with
  | 0 => '0'
  | 1 => '1'
  | 2 => '2'
  | 3 => '3'
  | 4 => '4'
  | 5 => '5'
  | 6 => '6'
  | 7 => '7'
  | 8 => '8'
  | 9 => '9'
  | _ => 'q'

/-- Numeric value of a digit character. -/
def digitVal (c : Char) : Nat := c.toNat - 48

/-- Decimal rendering of a natural number, most significant digit first,
as Serial.print renders an integer (0 prints as the single digit 0). -/
def natToChars (n : Nat) : List Char :=
  if n = 0 then ['0'] else (Nat.digits 10 n).reverse.map digChar

/-- Parse a run of decimal digit characters, most significant first. -/
def parseDigits (cs : List Char) : Nat :=
  cs.foldl (fun acc c => 10 * acc + digitVal c) 0

theorem digitVal_digChar (d : Nat) (h : d < 10) : digitVal (digChar d) = d := by
  interval_cases d <;> decide

theorem digChar_isDigit (d : Nat) (h : d < 10) : (digChar d).isDigit = true := by
  interval_cases d <;> decide

theorem natToChars_digits (n : Nat) : ∀ c ∈ natToChars n, c.isDigit = true := by
  intro c hc
  unfold natToChars at hc
  split at hc
  · simp at hc
    simp [hc]
  · simp only [List.mem_map, List.mem_reverse] at hc
    obtain ⟨d, hd, rfl⟩ := hc
    exact digChar_isDigit d (Nat.digits_lt_base (by norm_num) hd)

theorem isDigit_not_special (c : Char) (h : c.isDigit = true) :
    c ≠ ',' ∧ c ≠ ':' ∧ c ≠ '\n' ∧ c ≠ '\x0d' ∧ c ≠ ' ' ∧ c ≠ '\t' ∧
    c ≠ '"' ∧ c ≠ '\x7b' ∧ c ≠ '\x7d' := by
  refine ⟨?_, ?_, ?_, ?_, ?_, ?_, ?_, ?_, ?_⟩ <;>
    · rintro rfl
      simp [Char.isDigit] at h

/-- Folding the digit parser over a reversed little-endian digit list gives
the number the digits denote. -/
theorem parseDigits_reverse_map (l : List Nat) (h : ∀ d ∈ l, d < 10) :
    parseDigits (l.reverse.map digChar) = Nat.ofDigits 10 l := by
  induction l with
  | nil => simp [parseDigits]
  | cons d t ih =>
    have hd : d < 10 := h d (List.mem_cons_self d t)
    have ht : ∀ x ∈ t, x < 10 := fun x hx => h x (List.mem_cons_of_mem d hx)
    simp only [List.reverse_cons, List.map_append, List.map_cons, List.map_nil]
    unfold parseDigits
    rw [List.foldl_append]
    simp only [List.foldl_cons, List.foldl_nil]
    unfold parseDigits at ih
    rw [ih ht, Nat.ofDigits_cons, digitVal_digChar d hd]
    ring

theorem parseDigits_natToChars (n : Nat) : parseDigits (natToChars n) = n := by
  unfold natToChars
  split
  · subst n
    decide
  · rw [parseDigits_reverse_map _ (fun d hd => Nat.digits_lt_base (by norm_num) hd),
      Nat.ofDigits_digits]

theorem natToChars_ne_nil (n : Nat) : natToChars n ≠ [] := by
  unfold natToChars
  split
  · simp
  · intro h
    have := congrArg List.length h
    simp at this
    have : Nat.digits 10 n ≠ [] := Nat.digits_ne_nil_iff_ne_zero.mpr (by assumption)
    simp_all

/-! ## Splitting a character stream at a delimiter

splitSeg d cs returns the complete delimiter-terminated segments of cs
(in order, delimiters removed) and the unterminated tail after the last
delimiter.  This is the core of the Streaming Frame Reader (delimiter
is the newline) and of the field splitter of the Frame Decoder
(delimiters are the comma and the colon). -/

def splitSeg (d : Char) : List Char → List (List Char) × List Char
  | [] => ([], [])
  | c :: cs =>
    let r := splitSeg d cs
    if c = d then ([] :: r.1, r.2)
    else
      match r.1 with
      | [] => ([], c :: r.2)
      | l :: ls => ((c :: l) :: ls, r.2)

/-- All segments of cs, the unterminated tail included. -/
def splitOn (d : Char) (cs : List Char) : List (List Char) :=
  (splitSeg d cs).1 ++ [(splitSeg d cs).2]

theorem splitSeg_nil (d : Char) : splitSeg d [] = ([], []) := rfl

theorem splitSeg_cons_delim (d : Char) (cs : List Char) :
    splitSeg d (d :: cs) = ([] :: (splitSeg d cs).1, (splitSeg d cs).2) := by
  simp [splitSeg]

theorem splitSeg_cons_ne (d c : Char) (cs : List Char) (hc : c ≠ d) :
    splitSeg d (c :: cs) =
      (match (splitSeg d cs).1 with
       | [] => ([], c :: (splitSeg d cs).2)
       | l :: ls => ((c :: l) :: ls, (splitSeg d cs).2)) := by
  simp only [splitSeg, if_neg hc]

/-- A delimiter-free list splits into a lone unterminated tail. -/
theorem splitSeg_no_delim (d : Char) (cs : List Char) (h : ∀ c ∈ cs, c ≠ d) :
    splitSeg d cs = ([], cs) := by
  induction cs with
  | nil => rfl
  | cons c t ih =>
    have hc : c ≠ d := h c (List.mem_cons_self c t)
    have ht := ih (fun x hx => h x (List.mem_cons_of_mem c hx))
    rw [splitSeg_cons_ne d c t hc, ht]

/-- A delimiter-free head segment followed by a delimiter is the first
complete segment. -/
theorem splitSeg_free_append (d : Char) (a rest : List Char) (h : ∀ c ∈ a, c ≠ d) :
    splitSeg d (a ++ d :: rest) =
      (a :: (splitSeg d rest).1, (splitSeg d rest).2) := by
  induction a with
  | nil => simpa using splitSeg_cons_delim d rest
  | cons c t ih =>
    have hc : c ≠ d := h c (List.mem_cons_self c t)
    have ht := ih (fun x hx => h x (List.mem_cons_of_mem c hx))
    rw [List.cons_append, splitSeg_cons_ne d c _ hc, ht]

/-- The unterminated tail never holds the delimiter. -/
theorem splitSeg_tail_free (d : Char) (cs : List Char) :
    ∀ c ∈ (splitSeg d cs).2, c ≠ d := by
  induction cs with
  | nil => simp [splitSeg_nil]
  | cons c t ih =>
    by_cases hc : c = d
    · subst hc
      rw [splitSeg_cons_delim]
      exact ih
    · rw [splitSeg_cons_ne d c t hc]
      cases h1 : (splitSeg d t).1 with
      | nil =>
        intro x hx
        simp only [List.mem_cons] at hx
        rcases hx with rfl | hx
        · exact hc
        · exact ih x hx
      | cons l ls =>
        intro x hx
        exact ih x hx

/-- Splitting distributes over append: the segments of x ++ y are the
segments of x followed by the segments of the tail of x glued to y. -/
theorem splitSeg_append (d : Char) (x y : List Char) :
    splitSeg d (x ++ y) =
      ((splitSeg d x).1 ++ (splitSeg d ((splitSeg d x).2 ++ y)).1,
       (splitSeg d ((splitSeg d x).2 ++ y)).2) := by
  induction x with
  | nil => simp [splitSeg_nil]
  | cons c t ih =>
    by_cases hc : c = d
    · subst hc
      rw [List.cons_append, splitSeg_cons_delim, splitSeg_cons_delim, ih]
      simp
    · rw [List.cons_append, splitSeg_cons_ne d c _ hc, splitSeg_cons_ne d c t hc, ih]
      cases h1 : (splitSeg d t).1 with
      | nil =>
        simp only [List.nil_append]
        rw [List.cons_append, splitSeg_cons_ne d c _ hc]
      | cons l ls =>
        simp only [List.cons_append, List.append_assoc]

/-- Glueing a delimiter-free buffer in front of y: if y completes no
segment the buffer only grows, otherwise the buffer extends the first
segment of y. -/
theorem splitSeg_free_prepend (d : Char) (w y : List Char) (h : ∀ c ∈ w, c ≠ d) :
    splitSeg d (w ++ y) =
      (match (splitSeg d y).1 with
       | [] => ([], w ++ (splitSeg d y).2)
       | l :: ls => ((w ++ l) :: ls, (splitSeg d y).2)) := by
  induction w with
  | nil =>
    cases h1 : (splitSeg d y).1 with
    | nil => simp [← h1]
    | cons l ls => simp [← h1]
  | cons c t ih =>
    have hc : c ≠ d := h c (List.mem_cons_self c t)
    have ht := ih (fun x hx => h x (List.mem_cons_of_mem c hx))
    rw [List.cons_append, splitSeg_cons_ne d c _ hc, ht]
    cases h1 : (splitSeg d y).1 with
    | nil => simp
    | cons l ls => simp

/-! ## The wire format (producer side)

Serial.print of an Arduino float prints the value with two digits after
the decimal point: a minus sign when the value is negative, then the
digits of the absolute value rounded half-up at the second decimal.
Serial.println appends a carriage return and a line feed.  Wire-level
float values are modelled as rationals. -/

/-- The two decimal digits d (d < 100), high digit first. -/
def twoDigits (d : Nat) : List Char := [digChar (d / 10), digChar (d % 10)]

/-- Absolute value of x in centi-units, rounded half-up: the payload of
the two-decimal rendering of Serial.print(float). -/
def centi (x : ℚ) : Nat := ⌊|x| * 100 + 1 / 2⌋₊

/-- Serial.print of a float value: sign, integer digits, point, two
decimals.  Modelled on Print.printFloat of the Arduino core (add 0.005
to the absolute value, print the integer part, then two fraction
digits), which the sketch reaches through Serial.print(quat.v.x). -/
def fmtComp (x : ℚ) : List Char :=
  (if x < 0 then ['-'] else []) ++
    natToChars (centi x / 100) ++ '.' :: twoDigits (centi x % 100)

/-- Wire-level quaternion: the four float fields the sketch serializes. -/
structure WireQuat where
  x : ℚ
  y : ℚ
  z : ℚ
  w : ℚ
deriving DecidableEq

/-- The bytes of transmit_quat (SendSerialData.ino lines 54 to 64): the
four quaternion fields, each Serial.print call one chunk, the trailing
comma included. -/
def transmit_quat (q : WireQuat) : List Char :=
  ['"', 'x', '"', ':'] ++ fmtComp q.x ++
    [',', '"', 'y', '"', ':'] ++ fmtComp q.y ++
    [',', '"', 'z', '"', ':'] ++ fmtComp q.z ++
    [',', '"', 'w', '"', ':'] ++ fmtComp q.w ++ [',']

/-- The bytes of one transmit call (SendSerialData.ino lines 46 to 52):
opening brace, the quaternion fields, the time field, then
Serial.println("}") which sends the closing brace, a carriage return
and a line feed. -/
def transmit (q : WireQuat) (t : Nat) : List Char :=
  ['\x7b'] ++ transmit_quat q ++
    ['"', 't', 'i', 'm', 'e', '"', ':'] ++ natToChars t ++
    ['\x7d'] ++ ['\x0d', '\n']

/-- The record body of section 6 of the spec, written from the spec:
\x7b"x":<float>,"y":<float>,"z":<float>,"w":<float>,"time":<uint32>\x7d
with the five fields in canonical order and no whitespace. -/
def specBody (q : WireQuat) (t : Nat) : List Char :=
  ['\x7b', '"', 'x', '"', ':'] ++ fmtComp q.x ++
    [',', '"', 'y', '"', ':'] ++ fmtComp q.y ++
    [',', '"', 'z', '"', ':'] ++ fmtComp q.z ++
    [',', '"', 'w', '"', ':'] ++ fmtComp q.w ++
    [',', '"', 't', 'i', 'm', 'e', '"', ':'] ++ natToChars t ++ ['\x7d']

/-- The encoder line as the spec states it: the record body terminated
by a single newline. -/
def specLine (q : WireQuat) (t : Nat) : List Char := specBody q t ++ ['\n']

theorem fmtComp_chars (x : ℚ) :
    ∀ c ∈ fmtComp x, c.isDigit = true ∨ c = '-' ∨ c = '.' := by
  intro c hc
  unfold fmtComp at hc
  simp only [List.mem_append, List.mem_cons] at hc
  rcases hc with (hc | hc) | hc | hc
  · split at hc <;> simp_all
  · exact Or.inl (natToChars_digits _ c hc)
  · exact Or.inr (Or.inr hc)
  · unfold twoDigits at hc
    simp only [List.mem_cons, List.not_mem_nil, or_false] at hc
    have h100 : centi x % 100 < 100 := Nat.mod_lt _ (by norm_num)
    rcases hc with rfl | rfl
    · exact Or.inl (digChar_isDigit _ (Nat.div_lt_of_lt_mul (by omega)))
    · exact Or.inl (digChar_isDigit _ (Nat.mod_lt _ (by norm_num)))

/-- No character of a serialized float is structural for the record:
not a comma, colon, brace, quote, newline or whitespace. -/
theorem fmtComp_not_special (x : ℚ) :
    ∀ c ∈ fmtComp x, c ≠ ',' ∧ c ≠ ':' ∧ c ≠ '\n' ∧ c ≠ '\x0d' ∧ c ≠ ' ' ∧
      c ≠ '\t' ∧ c ≠ '"' ∧ c ≠ '\x7b' ∧ c ≠ '\x7d' := by
  intro c hc
  rcases fmtComp_chars x c hc with h | rfl | rfl
  · exact isDigit_not_special c h
  · refine ⟨?_, ?_, ?_, ?_, ?_, ?_, ?_, ?_, ?_⟩ <;> decide
  · refine ⟨?_, ?_, ?_, ?_, ?_, ?_, ?_, ?_, ?_⟩ <;> decide

theorem natToChars_not_special (n : Nat) :
    ∀ c ∈ natToChars n, c ≠ ',' ∧ c ≠ ':' ∧ c ≠ '\n' ∧ c ≠ '\x0d' ∧ c ≠ ' ' ∧
      c ≠ '\t' ∧ c ≠ '"' ∧ c ≠ '\x7b' ∧ c ≠ '\x7d' := by
  intro c hc
  exact isDigit_not_special c (natToChars_digits n c hc)

/-! ## The Frame Decoder (consumer side)

Modelled from the spec: the decoder lives in the Rust viewer, which the
repository README names but whose sources are not under src/.  Spec,
section 4.4: parse the five expected numeric fields by name, independent
of their order in the line and of surrounding whitespace; exactly the
five recognized fields must be present, x, y, z and w parse as floating
point, time as an unsigned 32-bit integer; anything else is a decode
error (modelled as none). -/

/-- A decoded telemetry frame. -/
structure Frame where
  x : ℚ
  y : ℚ
  z : ℚ
  w : ℚ
  time : Nat
deriving DecidableEq

/-- Whitespace that may surround a line on the wire. -/
def isWS (c : Char) : Bool := c = ' ' || c = '\x0d' || c = '\t'

/-- Strip surrounding whitespace from a line. -/
def trimWS (cs : List Char) : List Char :=
  ((cs.dropWhile isWS).reverse.dropWhile isWS).reverse

/-- The characters strictly between one opening and one closing brace. -/
def stripBraces (cs : List Char) : Option (List Char) :=
  match cs with
  | [] => none
  | c :: rest =>
    if c = '\x7b' then
      match rest.reverse with
      | [] => none
      | c2 :: mid => if c2 = '\x7d' then some mid.reverse else none
    else none

/-- Parse an unsigned decimal float: integer digits, then optional
point and fraction digits. -/
def parseUFloat (cs : List Char) : Option ℚ :=
  let ip := cs.takeWhile Char.isDigit
  let rest := cs.dropWhile Char.isDigit
  if ip = [] then none
  else
    match rest with
    | [] => some (parseDigits ip)
    | '.' :: fp =>
      if fp = [] then none
      else if fp.all Char.isDigit then
        some ((parseDigits ip : ℚ) + (parseDigits fp : ℚ) / 10 ^ fp.length)
      else none
    | _ => none

/-- Parse a decimal float with optional leading minus sign. -/
def parseFloat (cs : List Char) : Option ℚ :=
  match cs with
  | [] => none
  | c :: rest =>
    if c = '-' then (parseUFloat rest).map (fun v => -v)
    else parseUFloat (c :: rest)

/-- Parse an unsigned 32-bit decimal integer. -/
def parseU32 (cs : List Char) : Option Nat :=
  if cs ≠ [] ∧ cs.all Char.isDigit ∧ parseDigits cs < 2 ^ 32 then
    some (parseDigits cs)
  else none

/-- Split one field at its colon and unquote the name: accepts
"name":value and yields (name characters, value characters). -/
def fieldOf (cs : List Char) : Option (List Char × List Char) :=
  match splitOn ':' cs with
  | [n, v] =>
    match n with
    | [] => none
    | c :: rest =>
      if c = '"' then
        match rest.reverse with
        | [] => none
        | c2 :: nm => if c2 = '"' then some (nm.reverse, v) else none
      else none
  | _ => none

/-- Parse every comma-separated piece as a field. -/
def parseFields : List (List Char) → Option (List (List Char × List Char))
  | [] => some []
  | p :: ps =>
    match fieldOf p, parseFields ps with
    | some f, some fs => some (f :: fs)
    | _, _ => none

/-- The value of the first field of the given name, when one is
present. -/
def lookupVal : List (List Char × List Char) → List Char → Option (List Char)
  | [], _ => none
  | p :: ps, nm => if p.1 = nm then some p.2 else lookupVal ps nm

/-- Build the frame from the named fields: the five recognized names
must each be present and each value must parse as its expected type. -/
def decodeFields (fs : List (List Char × List Char)) : Option Frame :=
  match lookupVal fs ['x'], lookupVal fs ['y'], lookupVal fs ['z'],
      lookupVal fs ['w'], lookupVal fs ['t', 'i', 'm', 'e'] with
  | some vx, some vy, some vz, some vw, some vt =>
    match parseFloat vx, parseFloat vy, parseFloat vz, parseFloat vw,
        parseU32 vt with
    | some a, some b, some c, some d, some t => some ⟨a, b, c, d, t⟩
    | _, _, _, _, _ => none
  | _, _, _, _, _ => none

/-- Decode the characters between the braces: exactly five
comma-separated fields, handed to decodeFields. -/
def decodeInner (mid : List Char) : Option Frame :=
  if (splitOn ',' mid).length = 5 then
    match parseFields (splitOn ',' mid) with
    | none => none
    | some fs => decodeFields fs
  else none

/-- Decode one line into a frame: surrounding whitespace ignored,
braces required, exactly five fields, the five recognized names each
present, each value of its expected type. -/
def decodeLine (cs : List Char) : Option Frame :=
  match stripBraces (trimWS cs) with
  | none => none
  | some mid => decodeInner mid

/-! ## Round trip of one numeric field -/

theorem takeWhile_all_append (p : Char → Bool) (a b : List Char)
    (h : ∀ c ∈ a, p c = true) : (a ++ b).takeWhile p = a ++ b.takeWhile p := by
  induction a with
  | nil => simp
  | cons c t ih =>
    have hc : p c = true := h c (List.mem_cons_self c t)
    have ht := ih (fun x hx => h x (List.mem_cons_of_mem c hx))
    simp [List.takeWhile_cons, hc, ht]

theorem dropWhile_all_append (p : Char → Bool) (a b : List Char)
    (h : ∀ c ∈ a, p c = true) : (a ++ b).dropWhile p = b.dropWhile p := by
  induction a with
  | nil => simp
  | cons c t ih =>
    have hc : p c = true := h c (List.mem_cons_self c t)
    have ht := ih (fun x hx => h x (List.mem_cons_of_mem c hx))
    simp [List.dropWhile_cons, hc, ht]

theorem parseDigits_twoDigits (d : Nat) (h : d < 100) :
    parseDigits (twoDigits d) = d := by
  unfold twoDigits parseDigits
  simp only [List.foldl_cons, List.foldl_nil]
  rw [digitVal_digChar _ (Nat.div_lt_of_lt_mul (by omega)),
    digitVal_digChar _ (Nat.mod_lt _ (by norm_num))]
  omega

theorem twoDigits_all_digits (d : Nat) (h : d < 100) :
    ∀ c ∈ twoDigits d, c.isDigit = true := by
  intro c hc
  unfold twoDigits at hc
  simp only [List.mem_cons, List.not_mem_nil, or_false] at hc
  rcases hc with rfl | rfl
  · exact digChar_isDigit _ (Nat.div_lt_of_lt_mul (by omega))
  · exact digChar_isDigit _ (Nat.mod_lt _ (by norm_num))

theorem parseUFloat_shape (m k : Nat) (hk : k < 100) :
    parseUFloat (natToChars m ++ '.' :: twoDigits k) =
      some ((m : ℚ) + (k : ℚ) / 100) := by
  have hdig := natToChars_digits m
  have htw : (natToChars m ++ '.' :: twoDigits k).takeWhile Char.isDigit
      = natToChars m := by
    rw [takeWhile_all_append _ _ _ hdig]
    simp [List.takeWhile_cons]
  have hdw : (natToChars m ++ '.' :: twoDigits k).dropWhile Char.isDigit
      = '.' :: twoDigits k := by
    rw [dropWhile_all_append _ _ _ hdig]
    simp [List.dropWhile_cons]
  unfold parseUFloat
  simp only [htw, hdw, if_neg (natToChars_ne_nil m)]
  have h2 : twoDigits k ≠ [] := by unfold twoDigits; simp
  have hall : (twoDigits k).all Char.isDigit = true :=
    List.all_eq_true.mpr (twoDigits_all_digits k hk)
  have hlen : (twoDigits k).length = 2 := by unfold twoDigits; simp
  simp only [if_neg h2, if_pos hall, hlen, parseDigits_natToChars,
    parseDigits_twoDigits k hk]
  norm_num

/-- The rational value the decoder recovers from the two-decimal
rendering of x. -/
def roundVal (x : ℚ) : ℚ :=
  (if x < 0 then (-1 : ℚ) else 1) * ((centi x : ℚ) / 100)

theorem parseFloat_cons (c : Char) (rest : List Char) :
    parseFloat (c :: rest) =
      if c = '-' then (parseUFloat rest).map (fun v => -v)
      else parseUFloat (c :: rest) := rfl

theorem parseFloat_fmtComp (x : ℚ) :
    parseFloat (fmtComp x) = some (roundVal x) := by
  have hk : centi x % 100 < 100 := Nat.mod_lt _ (by norm_num)
  have hbody := parseUFloat_shape (centi x / 100) (centi x % 100) hk
  have hval : ((centi x / 100 : Nat) : ℚ) + ((centi x % 100 : Nat) : ℚ) / 100
      = (centi x : ℚ) / 100 := by
    have h2 : 100 * ((centi x / 100 : Nat) : ℚ) + ((centi x % 100 : Nat) : ℚ)
        = (centi x : ℚ) := by
      exact_mod_cast Nat.div_add_mod (centi x) 100
    field_simp
    linarith
  by_cases hneg : x < 0
  · unfold fmtComp
    rw [if_pos hneg]
    rw [List.singleton_append, List.cons_append, parseFloat_cons, if_pos rfl,
      hbody]
    unfold roundVal
    rw [if_pos hneg]
    simp [hval]
  · unfold fmtComp
    rw [if_neg hneg]
    obtain ⟨c, cs, hcs⟩ := List.exists_cons_of_ne_nil (natToChars_ne_nil (centi x / 100))
    have hcdig : c.isDigit = true := by
      apply natToChars_digits (centi x / 100)
      rw [hcs]
      exact List.mem_cons_self c cs
    have hcne : c ≠ '-' := by
      intro h
      subst h
      simp [Char.isDigit] at hcdig
    rw [List.nil_append, hcs, List.cons_append, parseFloat_cons, if_neg hcne,
      ← List.cons_append, ← hcs, hbody]
    unfold roundVal
    rw [if_neg hneg]
    simp [hval]

theorem roundVal_close (x : ℚ) : abs (roundVal x - x) ≤ 1 / 200 := by
  have h0 : (0 : ℚ) ≤ abs x * 100 + 1 / 2 := by positivity
  have hle : ((centi x : ℚ)) ≤ abs x * 100 + 1 / 2 := Nat.floor_le h0
  have hlt : abs x * 100 + 1 / 2 < (centi x : ℚ) + 1 := Nat.lt_floor_add_one _
  have hclose : abs ((centi x : ℚ) / 100 - abs x) ≤ 1 / 200 := by
    rw [abs_le]
    constructor <;> nlinarith [hle, hlt]
  unfold roundVal
  by_cases hneg : x < 0
  · rw [if_pos hneg]
    have hx : abs x = -x := abs_of_neg hneg
    rw [hx] at hclose
    have h3 : -1 * ((centi x : ℚ) / 100) - x = -((centi x : ℚ) / 100 - -x) := by
      ring
    rw [h3, abs_neg]
    exact hclose
  · rw [if_neg hneg]
    have hx : abs x = x := abs_of_nonneg (not_lt.mp hneg)
    rw [hx] at hclose
    simpa using hclose

theorem parseU32_natToChars (t : Nat) (h : t < 2 ^ 32) :
    parseU32 (natToChars t) = some t := by
  unfold parseU32
  rw [if_pos, parseDigits_natToChars]
  refine ⟨natToChars_ne_nil t, List.all_eq_true.mpr (natToChars_digits t), ?_⟩
  rw [parseDigits_natToChars]
  exact h

/-! ## Structure of the transmitted line -/

/-- The x field as transmitted. -/
def fieldX (q : WireQuat) : List Char := '"' :: 'x' :: '"' :: ':' :: fmtComp q.x

/-- The y field as transmitted. -/
def fieldY (q : WireQuat) : List Char := '"' :: 'y' :: '"' :: ':' :: fmtComp q.y

/-- The z field as transmitted. -/
def fieldZ (q : WireQuat) : List Char := '"' :: 'z' :: '"' :: ':' :: fmtComp q.z

/-- The w field as transmitted. -/
def fieldW (q : WireQuat) : List Char := '"' :: 'w' :: '"' :: ':' :: fmtComp q.w

/-- The time field as transmitted. -/
def fieldT (t : Nat) : List Char :=
  '"' :: 't' :: 'i' :: 'm' :: 'e' :: '"' :: ':' :: natToChars t

/-- The characters between the braces of one transmitted record. -/
def innerChars (q : WireQuat) (t : Nat) : List Char :=
  fieldX q ++ ',' :: (fieldY q ++ ',' :: (fieldZ q ++ ',' :: (fieldW q ++
    ',' :: fieldT t)))

theorem transmit_shape (q : WireQuat) (t : Nat) :
    transmit q t = '\x7b' :: (innerChars q t ++ ['\x7d', '\x0d', '\n']) := by
  simp [transmit, transmit_quat, innerChars, fieldX, fieldY, fieldZ, fieldW,
    fieldT]

theorem specBody_shape (q : WireQuat) (t : Nat) :
    specBody q t = '\x7b' :: (innerChars q t ++ ['\x7d']) := by
  simp [specBody, innerChars, fieldX, fieldY, fieldZ, fieldW, fieldT]

/-- The characters that may stand between the braces of a record. -/
def wireChar (c : Char) : Prop :=
  c.isDigit = true ∨
    c ∈ ['-', '.', '"', ':', ',', 'x', 'y', 'z', 'w', 't', 'i', 'm', 'e']

theorem wireChar_not_special (c : Char) (h : wireChar c) :
    c ≠ '\n' ∧ c ≠ '\x0d' ∧ c ≠ ' ' ∧ c ≠ '\t' ∧ c ≠ '\x7b' ∧ c ≠ '\x7d' := by
  rcases h with h | h
  · have := isDigit_not_special c h
    tauto
  · fin_cases h <;> refine ⟨?_, ?_, ?_, ?_, ?_, ?_⟩ <;> decide

theorem fmtComp_wire (x : ℚ) : ∀ c ∈ fmtComp x, wireChar c := by
  intro c hc
  rcases fmtComp_chars x c hc with h | rfl | rfl
  · exact Or.inl h
  · exact Or.inr (by decide)
  · exact Or.inr (by decide)

theorem natToChars_wire (n : Nat) : ∀ c ∈ natToChars n, wireChar c := by
  intro c hc
  exact Or.inl (natToChars_digits n c hc)

theorem innerChars_wire (q : WireQuat) (t : Nat) :
    ∀ c ∈ innerChars q t, wireChar c := by
  intro c hc
  simp only [innerChars, fieldX, fieldY, fieldZ, fieldW, fieldT,
    List.mem_append, List.mem_cons] at hc
  rcases hc with ((rfl | rfl | rfl | rfl | h) | rfl | (rfl | rfl | rfl | rfl | h) |
      rfl | (rfl | rfl | rfl | rfl | h) | rfl | (rfl | rfl | rfl | rfl | h) |
      rfl | rfl | rfl | rfl | rfl | rfl | rfl | rfl | h)
  case _ => exact Or.inr (by decide)
  case _ => exact Or.inr (by decide)
  case _ => exact Or.inr (by decide)
  case _ => exact Or.inr (by decide)
  case _ => exact fmtComp_wire q.x c h
  all_goals first
  | exact Or.inr (by decide)
  | exact fmtComp_wire q.y c h
  | exact fmtComp_wire q.z c h
  | exact fmtComp_wire q.w c h
  | exact natToChars_wire t c h

/-! ## Decoding one transmitted line -/

theorem fieldOf_quoted (nm v : List Char) (hnm : ∀ c ∈ nm, c ≠ ':')
    (hv : ∀ c ∈ v, c ≠ ':') :
    fieldOf (('"' :: nm ++ ['"']) ++ ':' :: v) = some (nm, v) := by
  have hfree : ∀ c ∈ '"' :: nm ++ ['"'], c ≠ ':' := by
    intro c hc
    rcases List.mem_cons.mp hc with rfl | hc2
    · decide
    · rcases List.mem_append.mp hc2 with h | h
      · exact hnm c h
      · rw [List.mem_singleton] at h
        subst h
        decide
  have hsplit : splitOn ':' (('"' :: nm ++ ['"']) ++ ':' :: v)
      = ['"' :: nm ++ ['"'], v] := by
    unfold splitOn
    rw [splitSeg_free_append ':' _ v hfree, splitSeg_no_delim ':' v hv]
    simp
  unfold fieldOf
  rw [hsplit]
  simp [List.reverse_append]

theorem fieldX_free (q : WireQuat) : ∀ c ∈ fieldX q, c ≠ ',' := by
  intro c hc
  simp only [fieldX, List.mem_cons] at hc
  rcases hc with rfl | rfl | rfl | rfl | h
  · decide
  · decide
  · decide
  · decide
  · exact (fmtComp_not_special q.x c h).1

theorem fieldY_free (q : WireQuat) : ∀ c ∈ fieldY q, c ≠ ',' := by
  intro c hc
  simp only [fieldY, List.mem_cons] at hc
  rcases hc with rfl | rfl | rfl | rfl | h
  · decide
  · decide
  · decide
  · decide
  · exact (fmtComp_not_special q.y c h).1

theorem fieldZ_free (q : WireQuat) : ∀ c ∈ fieldZ q, c ≠ ',' := by
  intro c hc
  simp only [fieldZ, List.mem_cons] at hc
  rcases hc with rfl | rfl | rfl | rfl | h
  · decide
  · decide
  · decide
  · decide
  · exact (fmtComp_not_special q.z c h).1

theorem fieldW_free (q : WireQuat) : ∀ c ∈ fieldW q, c ≠ ',' := by
  intro c hc
  simp only [fieldW, List.mem_cons] at hc
  rcases hc with rfl | rfl | rfl | rfl | h
  · decide
  · decide
  · decide
  · decide
  · exact (fmtComp_not_special q.w c h).1

theorem fieldT_free (t : Nat) : ∀ c ∈ fieldT t, c ≠ ',' := by
  intro c hc
  simp only [fieldT, List.mem_cons] at hc
  rcases hc with rfl | rfl | rfl | rfl | rfl | rfl | rfl | h
  all_goals first
  | decide
  | exact (natToChars_not_special t c h).1

theorem inner_split (q : WireQuat) (t : Nat) :
    splitOn ',' (innerChars q t) =
      [fieldX q, fieldY q, fieldZ q, fieldW q, fieldT t] := by
  unfold splitOn innerChars
  rw [splitSeg_free_append ',' _ _ (fieldX_free q),
    splitSeg_free_append ',' _ _ (fieldY_free q),
    splitSeg_free_append ',' _ _ (fieldZ_free q),
    splitSeg_free_append ',' _ _ (fieldW_free q),
    splitSeg_no_delim ',' _ (fieldT_free t)]
  simp

theorem fieldOf_fieldX (q : WireQuat) :
    fieldOf (fieldX q) = some (['x'], fmtComp q.x) := by
  have h := fieldOf_quoted ['x'] (fmtComp q.x) (by decide)
    (fun c hc => (fmtComp_not_special q.x c hc).2.1)
  simpa [fieldX] using h

theorem fieldOf_fieldY (q : WireQuat) :
    fieldOf (fieldY q) = some (['y'], fmtComp q.y) := by
  have h := fieldOf_quoted ['y'] (fmtComp q.y) (by decide)
    (fun c hc => (fmtComp_not_special q.y c hc).2.1)
  simpa [fieldY] using h

theorem fieldOf_fieldZ (q : WireQuat) :
    fieldOf (fieldZ q) = some (['z'], fmtComp q.z) := by
  have h := fieldOf_quoted ['z'] (fmtComp q.z) (by decide)
    (fun c hc => (fmtComp_not_special q.z c hc).2.1)
  simpa [fieldZ] using h

theorem fieldOf_fieldW (q : WireQuat) :
    fieldOf (fieldW q) = some (['w'], fmtComp q.w) := by
  have h := fieldOf_quoted ['w'] (fmtComp q.w) (by decide)
    (fun c hc => (fmtComp_not_special q.w c hc).2.1)
  simpa [fieldW] using h

theorem fieldOf_fieldT (t : Nat) :
    fieldOf (fieldT t) = some (['t', 'i', 'm', 'e'], natToChars t) := by
  have h := fieldOf_quoted ['t', 'i', 'm', 'e'] (natToChars t) (by decide)
    (fun c hc => (natToChars_not_special t c hc).2.1)
  simpa [fieldT] using h

theorem trimWS_line (q : WireQuat) (t : Nat) :
    trimWS ('\x7b' :: (innerChars q t ++ ['\x7d', '\x0d'])) =
      '\x7b' :: (innerChars q t ++ ['\x7d']) := by
  unfold trimWS
  have h1 : List.dropWhile isWS ('\x7b' :: (innerChars q t ++ ['\x7d', '\x0d']))
      = '\x7b' :: (innerChars q t ++ ['\x7d', '\x0d']) := by
    simp [List.dropWhile_cons, isWS]
  rw [h1]
  have h2 : ('\x7b' :: (innerChars q t ++ ['\x7d', '\x0d'])).reverse
      = '\x0d' :: '\x7d' :: ((innerChars q t).reverse ++ ['\x7b']) := by
    simp
  rw [h2]
  have h3 : List.dropWhile isWS
      ('\x0d' :: '\x7d' :: ((innerChars q t).reverse ++ ['\x7b']))
      = '\x7d' :: ((innerChars q t).reverse ++ ['\x7b']) := by
    simp [List.dropWhile_cons, isWS]
  rw [h3]
  simp

theorem stripBraces_wrap (m : List Char) :
    stripBraces ('\x7b' :: (m ++ ['\x7d'])) = some m := by
  have h : (m ++ ['\x7d']).reverse = '\x7d' :: m.reverse := by simp
  simp only [stripBraces, h]
  simp

/-- Decoding the line the reader extracts from one transmit call
recovers the timestamp exactly and each quaternion component as its
two-decimal rounding. -/
theorem decodeLine_transmit (q : WireQuat) (t : Nat) (ht : t < 2 ^ 32) :
    decodeLine ('\x7b' :: (innerChars q t ++ ['\x7d', '\x0d'])) =
      some ⟨roundVal q.x, roundVal q.y, roundVal q.z, roundVal q.w, t⟩ := by
  have h1 : decodeLine ('\x7b' :: (innerChars q t ++ ['\x7d', '\x0d']))
      = decodeInner (innerChars q t) := by
    unfold decodeLine
    rw [trimWS_line, stripBraces_wrap]
  rw [h1]
  unfold decodeInner
  rw [inner_split]
  rw [if_pos (by simp)]
  simp only [parseFields, fieldOf_fieldX, fieldOf_fieldY, fieldOf_fieldZ,
    fieldOf_fieldW, fieldOf_fieldT]
  simp +decide [decodeFields, lookupVal, parseFloat_fmtComp,
    parseU32_natToChars t ht]

/-! ## The Streaming Frame Reader

Modelled from the spec: the reader lives in the Rust viewer, which the
repository README names but whose sources are not under src/.  Spec,
section 4.3: each poll appends the bytes one non-blocking read returned
to the buffer, extracts every complete newline-terminated line in
order, keeps the unterminated tail, and resets the buffer (reporting a
recoverable overflow) when the tail reaches the hard size ceiling. -/

/-- The outcome of one poll: the lines extracted, whether the ceiling
was hit, and the buffer carried to the next poll. -/
structure PollOut where
  lines : List (List Char)
  over : Bool
  buf : List Char
deriving DecidableEq

/-- One poll with ceiling C: append the chunk the read returned,
extract complete lines, then enforce the buffer ceiling. -/
def pollOnce (C : Nat) (buf chunk : List Char) : PollOut :=
  let r := splitSeg '\n' (buf ++ chunk)
  if C ≤ r.2.length then ⟨r.1, true, []⟩ else ⟨r.1, false, r.2⟩

/-- Repeated polls over a list of chunks: all lines emitted, in order,
and the final buffer. -/
def pollRun (C : Nat) (buf : List Char) :
    List (List Char) → List (List Char) × List Char
  | [] => ([], buf)
  | ch :: chs =>
    let r := pollOnce C buf ch
    let s := pollRun C r.buf chs
    (r.lines ++ s.1, s.2)

/-- When every line of the whole stream is below the ceiling, the
unterminated tail of any prefix of the stream is below it as well. -/
theorem tail_length_bound (d : Char) (x y : List Char) (C : Nat)
    (hl : ∀ l ∈ (splitSeg d (x ++ y)).1, l.length < C)
    (hr : (splitSeg d (x ++ y)).2.length < C) :
    (splitSeg d x).2.length < C := by
  have hfree := splitSeg_tail_free d x
  have happ := splitSeg_append d x y
  have hpre := splitSeg_free_prepend d (splitSeg d x).2 y hfree
  cases h1 : (splitSeg d y).1 with
  | nil =>
    rw [h1] at hpre
    have h2 : (splitSeg d (x ++ y)).2 = (splitSeg d x).2 ++ (splitSeg d y).2 := by
      rw [happ, hpre]
    rw [h2, List.length_append] at hr
    omega
  | cons l ls =>
    rw [h1] at hpre
    have h2 : ((splitSeg d x).2 ++ l) ∈ (splitSeg d (x ++ y)).1 := by
      rw [happ, hpre]
      simp
    have := hl _ h2
    rw [List.length_append] at this
    omega

/-- Repeated polling from a delimiter-free buffer is one split of the
whole byte stream, as long as every line stays below the ceiling: the
reader emits exactly the complete lines of the bytes it was fed, in
order, and keeps exactly the unterminated tail. -/
theorem pollRun_eq (C : Nat) (chs : List (List Char)) : ∀ buf : List Char,
    (∀ c ∈ buf, c ≠ '\n') →
    (∀ l ∈ (splitSeg '\n' (buf ++ chs.flatten)).1, l.length < C) →
    (splitSeg '\n' (buf ++ chs.flatten)).2.length < C →
    pollRun C buf chs =
      ((splitSeg '\n' (buf ++ chs.flatten)).1, (splitSeg '\n' (buf ++ chs.flatten)).2) := by
  induction chs with
  | nil =>
    intro buf hfree hl hr
    rw [List.flatten_nil, List.append_nil] at hl hr ⊢
    rw [splitSeg_no_delim '\n' buf hfree]
    rfl
  | cons ch chs ih =>
    intro buf hfree hl hr
    have hjoin : buf ++ (ch :: chs).flatten = (buf ++ ch) ++ chs.flatten := by
      rw [List.flatten_cons, List.append_assoc]
    rw [hjoin] at hl hr ⊢
    have happ := splitSeg_append '\n' (buf ++ ch) chs.flatten
    have htail : (splitSeg '\n' (buf ++ ch)).2.length < C :=
      tail_length_bound '\n' (buf ++ ch) chs.flatten C hl hr
    have hstep : pollOnce C buf ch =
        ⟨(splitSeg '\n' (buf ++ ch)).1, false, (splitSeg '\n' (buf ++ ch)).2⟩ := by
      unfold pollOnce
      rw [if_neg (by omega)]
    have hfree2 := splitSeg_tail_free '\n' (buf ++ ch)
    have hl2 : ∀ l ∈ (splitSeg '\n' ((splitSeg '\n' (buf ++ ch)).2 ++ chs.flatten)).1,
        l.length < C := by
      intro l hml
      apply hl
      rw [happ]
      exact List.mem_append_right _ hml
    have hr2 : (splitSeg '\n' ((splitSeg '\n' (buf ++ ch)).2 ++ chs.flatten)).2.length
        < C := by
      rw [happ] at hr
      exact hr
    have hrec := ih (splitSeg '\n' (buf ++ ch)).2 hfree2 hl2 hr2
    show ((pollOnce C buf ch).lines ++
        (pollRun C (pollOnce C buf ch).buf chs).1,
        (pollRun C (pollOnce C buf ch).buf chs).2) = _
    rw [hstep]
    simp only
    rw [hrec, happ]

/-! ## Orientation state (producer side)

The sketch stores quat_t q1 and calls q1.setRotation(axis, angle,
LARGE_ANGLE) from the external Arduino library quaternion_type.h (the
vector datatype library), which is not under src/.  That library call
NORMALIZES the axis and then SETS the quaternion to the rotation
quaternion of the axis-angle pair, w = cos(angle/2) and vector part
axis * sin(angle/2), overwriting the previous value (LARGE_ANGLE
selects the exact sine and cosine, not the small-angle series).  It
does not multiply with the previous quaternion.  The zero-length-axis
branch is Modelled from the spec: section 4.1 requires a zero axis to
be rejected defensively, returning the unchanged state.  Floats are
modelled as real numbers. -/

/-- Three-component vector, as vec3_t. -/
structure Vec3 where
  x : ℝ
  y : ℝ
  z : ℝ

/-- Four-component quaternion, as quat_t (vector part x, y, z and
scalar w, the order the sketch serializes). -/
structure Quat where
  x : ℝ
  y : ℝ
  z : ℝ
  w : ℝ

/-- Squared Euclidean magnitude of a vector. -/
def Vec3.magSq (a : Vec3) : ℝ := a.x ^ 2 + a.y ^ 2 + a.z ^ 2

/-- Euclidean magnitude. -/
noncomputable def Vec3.mag (a : Vec3) : ℝ := Real.sqrt a.magSq

/-- The vector scaled to unit magnitude, as vec3_t.norm(). -/
noncomputable def Vec3.normed (a : Vec3) : Vec3 :=
  ⟨a.x / a.mag, a.y / a.mag, a.z / a.mag⟩

/-- Squared 4-component Euclidean norm of a quaternion. -/
def Quat.normSq (q : Quat) : ℝ := q.x ^ 2 + q.y ^ 2 + q.z ^ 2 + q.w ^ 2

/-- Modelled from the spec and the library interface: quat_t.setRotation
(quaternion_type.h, not under src/) normalizes the axis and overwrites
the quaternion with the axis-angle rotation quaternion; per spec 4.1 a
zero-length axis is rejected defensively, leaving the state unchanged. -/
noncomputable def Quat.setRotation (q : Quat) (axis : Vec3) (angle : ℝ) : Quat :=
  if axis.magSq = 0 then q
  else
    ⟨axis.normed.x * Real.sin (angle / 2), axis.normed.y * Real.sin (angle / 2),
      axis.normed.z * Real.sin (angle / 2), Real.cos (angle / 2)⟩

/-- Standard Hamilton quaternion product, written from the words of
spec 4.1 for comparison with what the code does. -/
def Quat.mul (p r : Quat) : Quat :=
  ⟨p.w * r.x + p.x * r.w + p.y * r.z - p.z * r.y,
   p.w * r.y - p.x * r.z + p.y * r.w + p.z * r.x,
   p.w * r.z + p.x * r.y - p.y * r.x + p.z * r.w,
   p.w * r.w - p.x * r.x - p.y * r.y - p.z * r.z⟩

/-- Division of a quaternion by its norm, written from the words of
spec 4.1. -/
noncomputable def Quat.normalize (q : Quat) : Quat :=
  ⟨q.x / Real.sqrt q.normSq, q.y / Real.sqrt q.normSq,
   q.z / Real.sqrt q.normSq, q.w / Real.sqrt q.normSq⟩

/-- The axis-angle rotation quaternion of spec 4.1 (axis already a
unit vector by the RotationRequest invariant). -/
noncomputable def rotQuat (axis : Vec3) (angle : ℝ) : Quat :=
  ⟨axis.x * Real.sin (angle / 2), axis.y * Real.sin (angle / 2),
   axis.z * Real.sin (angle / 2), Real.cos (angle / 2)⟩

/-- The orientation update as spec 4.1 words it: compose the requested
rotation onto the current quaternion by quaternion multiplication, then
renormalize. -/
noncomputable def specApply (q : Quat) (axis : Vec3) (angle : ℝ) : Quat :=
  (q.mul (rotQuat axis angle)).normalize

/-- An axis and an angle, spec section 3. -/
structure RotationRequest where
  axis : Vec3
  angle : ℝ

/-- One update step of the orientation state. -/
noncomputable def applyReq (q : Quat) (r : RotationRequest) : Quat :=
  q.setRotation r.axis r.angle

/-- A sequence of update steps. -/
noncomputable def applyList (q : Quat) (rs : List RotationRequest) : Quat :=
  rs.foldl applyReq q

theorem setRotation_zero_axis (q : Quat) (a : Vec3) (θ : ℝ) (h : a.magSq = 0) :
    q.setRotation a θ = q := by
  unfold Quat.setRotation
  rw [if_pos h]

theorem setRotation_apply (q : Quat) (a : Vec3) (θ : ℝ) (h : ¬a.magSq = 0) :
    q.setRotation a θ =
      ⟨a.normed.x * Real.sin (θ / 2), a.normed.y * Real.sin (θ / 2),
       a.normed.z * Real.sin (θ / 2), Real.cos (θ / 2)⟩ := by
  unfold Quat.setRotation
  rw [if_neg h]

theorem magSq_nonneg (a : Vec3) : 0 ≤ a.magSq := by
  unfold Vec3.magSq
  positivity

theorem normed_magSq (a : Vec3) (h : a.magSq ≠ 0) : a.normed.magSq = 1 := by
  have hm : Real.sqrt a.magSq ^ 2 = a.magSq := Real.sq_sqrt (magSq_nonneg a)
  have hmne : Real.sqrt a.magSq ≠ 0 := by
    intro h0
    apply h
    rw [← hm, h0]
    ring
  show (a.x / a.mag) ^ 2 + (a.y / a.mag) ^ 2 + (a.z / a.mag) ^ 2 = 1
  unfold Vec3.mag
  rw [div_pow, div_pow, div_pow, hm]
  unfold Vec3.magSq
  unfold Vec3.magSq at h
  field_simp

theorem setRotation_normSq (q : Quat) (a : Vec3) (θ : ℝ) (h : a.magSq ≠ 0) :
    (q.setRotation a θ).normSq = 1 := by
  rw [setRotation_apply q a θ h]
  show (a.normed.x * Real.sin (θ / 2)) ^ 2 + (a.normed.y * Real.sin (θ / 2)) ^ 2 +
    (a.normed.z * Real.sin (θ / 2)) ^ 2 + Real.cos (θ / 2) ^ 2 = 1
  have hn : a.normed.x ^ 2 + a.normed.y ^ 2 + a.normed.z ^ 2 = 1 := normed_magSq a h
  have hsc := Real.sin_sq_add_cos_sq (θ / 2)
  nlinarith [hn, hsc]

/-! ## The producer loop

The sketch: each iteration calls rotate_quat (axis fixed at (0, 1, 0),
angle (PI/180) * i), then transmit, then i += 1, then delay(10).  The
counter i is a 32-bit float, modelled exactly on integer values by
round-to-nearest-even with a 24-bit significand. -/

/-- The fixed rotation axis of rotate_quat. -/
def yAxis : Vec3 := ⟨0, 1, 0⟩

/-- Round x to the nearest multiple of u, ties to the even multiple. -/
def rne (u x : Nat) : Nat :=
  if 2 * (x % u) < u then x / u * u
  else if u < 2 * (x % u) then (x / u + 1) * u
  else if x / u % 2 = 0 then x / u * u else (x / u + 1) * u

/-- Distance between consecutive binary32 values at magnitude n:
one for integers up to 2^24 (all exactly representable), then a power
of two growing with the exponent. -/
def ulp32 (n : Nat) : Nat := if n ≤ 2 ^ 24 then 1 else 2 ^ (Nat.log2 n - 23)

/-- The nearest binary32 value of an integer, round to nearest, ties
to even. -/
def fl32 (n : Nat) : Nat := rne (ulp32 n) n

/-- The float counter i before frame k + 1 is transmitted: starts at 1,
and each loop iteration stores the 32-bit float sum i + 1. -/
def iVal : Nat → Nat
  | 0 => 1
  | k + 1 => fl32 (iVal k + 1)

/-- Degrees to radians, as the sketch computes (PI/180.0) * i. -/
noncomputable def degToRad (m : Nat) : ℝ := (Real.pi / 180) * m

/-- The quaternion transmitted in the nth frame (n starts at 1; index 0
is the initial global value, the placeholder that is never sent because
rotate_quat runs before the first transmit). -/
noncomputable def frameQuat (init : Quat) : Nat → Quat
  | 0 => init
  | n + 1 => (frameQuat init n).setRotation yAxis (degToRad (iVal n))

/-- The rotation angle used for the nth frame. -/
noncomputable def frameAngle (n : Nat) : ℝ := degToRad (iVal (n - 1))

theorem frameQuat_succ (init : Quat) (n : Nat) :
    frameQuat init (n + 1) =
      (frameQuat init n).setRotation yAxis (degToRad (iVal n)) := rfl

theorem yAxis_magSq : yAxis.magSq = 1 := by
  show (0 : ℝ) ^ 2 + 1 ^ 2 + 0 ^ 2 = 1
  norm_num

theorem yAxis_normed : yAxis.normed = ⟨0, 1, 0⟩ := by
  unfold Vec3.normed Vec3.mag
  rw [yAxis_magSq, Real.sqrt_one]
  show (⟨0 / 1, 1 / 1, 0 / 1⟩ : Vec3) = ⟨0, 1, 0⟩
  norm_num

/-! ## The timestamp

millis() and delay() are Arduino core functions, not under src/:
Modelled from the spec as an elapsed-milliseconds trace.  transmit
sends millis(), the unsigned 32-bit count of milliseconds since boot,
which wraps at 2^32; delay(10) puts at least 10 ms between consecutive
transmits of one producer run. -/

/-- The 32-bit value transmitted for an elapsed-milliseconds count. -/
def wrap32 (n : Nat) : Nat := n % 2 ^ 32

/-- A producer run: e n is the true elapsed milliseconds at the nth
transmit; delay(10) forces at least 10 ms between consecutive frames. -/
def ValidRun (e : Nat → Nat) : Prop := ∀ n, e n + 10 ≤ e (n + 1)

/-! ## Binary32 facts about the counter i -/

theorem rne_one (x : Nat) : rne 1 x = x := by
  unfold rne
  simp [Nat.mod_one]

theorem fl32_small (m : Nat) (h : m ≤ 2 ^ 24) : fl32 m = m := by
  unfold fl32 ulp32
  rw [if_pos h, rne_one]

theorem log2_sat : Nat.log2 (2 ^ 24 + 1) = 24 := by
  rw [Nat.log2_eq_log_two]
  exact Nat.log_eq_of_pow_le_of_lt_pow (by norm_num) (by norm_num)

/-- The integer 2^24 + 1 is not a binary32 value: rounding ties to the
even neighbour 2^24, so the float increment i += 1 no longer moves i. -/
theorem fl32_sat : fl32 (2 ^ 24 + 1) = 2 ^ 24 := by
  unfold fl32 ulp32
  rw [if_neg (by norm_num), log2_sat]
  unfold rne
  norm_num

theorem iVal_eq (k : Nat) : iVal k = min (k + 1) (2 ^ 24) := by
  induction k with
  | zero =>
    show (1 : Nat) = min 1 (2 ^ 24)
    norm_num
  | succ k ih =>
    show fl32 (iVal k + 1) = min (k + 1 + 1) (2 ^ 24)
    rw [ih]
    by_cases h : k + 1 < 2 ^ 24
    · rw [min_eq_left (by omega), fl32_small (k + 2) (by omega),
        min_eq_left (by omega)]
    · rw [min_eq_right (by omega), fl32_sat, min_eq_right (by omega)]

/-! ## Shared helper lemmas for the claims -/

theorem transmit_eq_body (q : WireQuat) (t : Nat) :
    transmit q t = specBody q t ++ ['\x0d', '\n'] := by
  rw [transmit_shape, specBody_shape]
  simp

theorem specBody_no_ws (q : WireQuat) (t : Nat) :
    ∀ c ∈ specBody q t, c ≠ '\n' ∧ c ≠ '\x0d' ∧ c ≠ ' ' ∧ c ≠ '\t' := by
  intro c hc
  rw [specBody_shape] at hc
  rcases List.mem_cons.mp hc with rfl | hc2
  · exact ⟨by decide, by decide, by decide, by decide⟩
  · rcases List.mem_append.mp hc2 with h | h
    · have := wireChar_not_special c (innerChars_wire q t c h)
      tauto
    · rw [List.mem_singleton] at h
      subst h
      exact ⟨by decide, by decide, by decide, by decide⟩

theorem transmit_line (q : WireQuat) (t : Nat) :
    splitSeg '\n' (transmit q t) =
      (['\x7b' :: (innerChars q t ++ ['\x7d', '\x0d'])], []) := by
  have hfree : ∀ c ∈ '\x7b' :: (innerChars q t ++ ['\x7d', '\x0d']), c ≠ '\n' := by
    intro c hc
    rcases List.mem_cons.mp hc with rfl | hc2
    · decide
    · rcases List.mem_append.mp hc2 with h | h
      · exact (wireChar_not_special c (innerChars_wire q t c h)).1
      · fin_cases h <;> decide
  rw [transmit_shape]
  have hshape : '\x7b' :: (innerChars q t ++ ['\x7d', '\x0d', '\n'])
      = ('\x7b' :: (innerChars q t ++ ['\x7d', '\x0d'])) ++ '\n' :: [] := by
    simp
  rw [hshape, splitSeg_free_append '\n' _ [] hfree, splitSeg_nil]

theorem step_normSq (q : Quat) (r : RotationRequest) (h : q.normSq = 1) :
    (applyReq q r).normSq = 1 := by
  by_cases ha : r.axis.magSq = 0
  · unfold applyReq
    rw [setRotation_zero_axis _ _ _ ha]
    exact h
  · exact setRotation_normSq _ _ _ ha

theorem applyList_normSq (rs : List RotationRequest) :
    ∀ q : Quat, q.normSq = 1 → (applyList q rs).normSq = 1 := by
  induction rs with
  | nil => exact fun q h => h
  | cons r rs ih =>
    intro q h
    show (applyList (applyReq q r) rs).normSq = 1
    exact ih _ (step_normSq q r h)

/-! ## Claim C1 -/

/-- Helper: the update at a zero angle, computed on both models. -/
theorem set_at_zero : Quat.setRotation ⟨0, 1, 0, 0⟩ yAxis 0 = ⟨0, 0, 0, 1⟩ := by
  rw [setRotation_apply _ _ _ (by rw [yAxis_magSq]; norm_num), yAxis_normed]
  show (⟨0 * Real.sin (0 / 2), 1 * Real.sin (0 / 2), 0 * Real.sin (0 / 2),
    Real.cos (0 / 2)⟩ : Quat) = ⟨0, 0, 0, 1⟩
  norm_num [Real.sin_zero, Real.cos_zero]

theorem rot_at_zero : rotQuat yAxis 0 = ⟨0, 0, 0, 1⟩ := by
  unfold rotQuat
  show (⟨yAxis.x * Real.sin (0 / 2), yAxis.y * Real.sin (0 / 2),
    yAxis.z * Real.sin (0 / 2), Real.cos (0 / 2)⟩ : Quat) = ⟨0, 0, 0, 1⟩
  norm_num [yAxis, Real.sin_zero, Real.cos_zero]

theorem normalize_j : Quat.normalize ⟨0, 1, 0, 0⟩ = ⟨0, 1, 0, 0⟩ := by
  unfold Quat.normalize Quat.normSq
  norm_num [Real.sqrt_one]

/-- Claim C1 (counterexample): the update is not composition followed
by renormalization.  At the concrete state (0, 1, 0, 0) and the request
axis (0, 1, 0), angle 0, the spec contract returns the state unchanged
(composing with the identity rotation), but setRotation overwrites the
state with the identity quaternion (0, 0, 0, 1) — under either order of
the quaternion product. -/
theorem c1_cex :
    Quat.setRotation ⟨0, 1, 0, 0⟩ yAxis 0 ≠ specApply ⟨0, 1, 0, 0⟩ yAxis 0 ∧
    Quat.setRotation ⟨0, 1, 0, 0⟩ yAxis 0 ≠
      ((rotQuat yAxis 0).mul ⟨0, 1, 0, 0⟩).normalize := by
  have hspec : specApply ⟨0, 1, 0, 0⟩ yAxis 0 = ⟨0, 1, 0, 0⟩ := by
    unfold specApply
    rw [rot_at_zero]
    have hmul : Quat.mul ⟨0, 1, 0, 0⟩ ⟨0, 0, 0, 1⟩ = ⟨0, 1, 0, 0⟩ := by
      unfold Quat.mul
      norm_num
    rw [hmul, normalize_j]
  have hspec2 : ((rotQuat yAxis 0).mul ⟨0, 1, 0, 0⟩).normalize = ⟨0, 1, 0, 0⟩ := by
    rw [rot_at_zero]
    have hmul : Quat.mul ⟨0, 0, 0, 1⟩ ⟨0, 1, 0, 0⟩ = ⟨0, 1, 0, 0⟩ := by
      unfold Quat.mul
      norm_num
    rw [hmul, normalize_j]
  constructor
  · intro h
    rw [set_at_zero, hspec] at h
    have := congrArg Quat.y h
    norm_num at this
  · intro h
    rw [set_at_zero, hspec2] at h
    have := congrArg Quat.y h
    norm_num at this

/-- Claim C1 (amended): the update operation overwrites the current
quaternion with the rotation quaternion of the requested axis-angle —
the result does not depend on the previous state at all — and the
stored quaternion is unit-norm by construction (from the normalized
axis and the half-angle sine and cosine), with no renormalizing
division of a product; rotate_quat returns nothing. -/
theorem c1_overwrite_unit (q q2 : Quat) (a : Vec3) (θ : ℝ) (h : a.magSq ≠ 0) :
    q.setRotation a θ = q2.setRotation a θ ∧ (q.setRotation a θ).normSq = 1 := by
  constructor
  · rw [setRotation_apply q a θ h, setRotation_apply q2 a θ h]
  · exact setRotation_normSq q a θ h

/-- Witness for C1: the amended theorem at a concrete input. -/
theorem c1_overwrite_unit_wit :
    Quat.setRotation ⟨0, 1, 0, 0⟩ yAxis 3 = Quat.setRotation ⟨1, 0, 0, 0⟩ yAxis 3 ∧
    (Quat.setRotation ⟨0, 1, 0, 0⟩ yAxis 3).normSq = 1 :=
  c1_overwrite_unit ⟨0, 1, 0, 0⟩ ⟨1, 0, 0, 0⟩ yAxis 3
    (by rw [yAxis_magSq]; norm_num)

/-! ## Claim C2 -/

/-- Claim C2 (counterexample): the emitted line is not the record body
followed by a single newline: Serial.println terminates it with a
carriage return and a line feed, so at the concrete quaternion
(0, 0, 0, 1) and timestamp 0 the emitted bytes differ from the
spec-worded line. -/
theorem c2_cex : transmit ⟨0, 0, 0, 1⟩ 0 ≠ specLine ⟨0, 0, 0, 1⟩ 0 := by
  intro h
  have h1 := congrArg List.length h
  rw [transmit_eq_body] at h1
  unfold specLine at h1
  simp only [List.length_append, List.length_cons, List.length_nil] at h1
  omega

/-- Claim C2 (amended): every emitted frame is exactly the canonical
five-field record of section 6 — fields in canonical order, no
whitespace anywhere in the body — terminated by a carriage return and
a line feed (Serial.println), not by a single newline; the line feed is
the only newline byte of the frame. -/
theorem c2_line_format (q : WireQuat) (t : Nat) :
    transmit q t = specBody q t ++ ['\x0d', '\n'] ∧
    (∀ c ∈ specBody q t, c ≠ '\n' ∧ c ≠ '\x0d' ∧ c ≠ ' ' ∧ c ≠ '\t') ∧
    (transmit q t).count '\n' = 1 := by
  refine ⟨transmit_eq_body q t, specBody_no_ws q t, ?_⟩
  rw [transmit_eq_body, List.count_append]
  have h0 : (specBody q t).count '\n' = 0 := by
    rw [List.count_eq_zero]
    intro hmem
    exact (specBody_no_ws q t '\n' hmem).1 rfl
  rw [h0]
  decide

/-- Witness for C2: the amended theorem at a concrete input. -/
theorem c2_line_format_wit :
    transmit ⟨0, 0, 0, 1⟩ 5 = specBody ⟨0, 0, 0, 1⟩ 5 ++ ['\x0d', '\n'] ∧
    (transmit ⟨0, 0, 0, 1⟩ 5).count '\n' = 1 :=
  ⟨(c2_line_format ⟨0, 0, 0, 1⟩ 5).1, (c2_line_format ⟨0, 0, 0, 1⟩ 5).2.2⟩

/-! ## Claim C3 -/

/-- Claim C3 (confirmed): starting from a unit quaternion, after every
step of any sequence of rotation requests the squared norm is exactly 1
in the real-number model, so the norm is within the tolerance 1e-5 of
1 — there is no drift at all: a request with a nonzero axis stores a
freshly built unit quaternion, and a zero-axis request leaves the state
unchanged. -/
theorem c3_norm_invariant (q0 : Quat) (rs : List RotationRequest) (n : Nat)
    (h : q0.normSq = 1) :
    (applyList q0 (rs.take n)).normSq = 1 ∧
    abs (Real.sqrt (applyList q0 (rs.take n)).normSq - 1) ≤ 1 / 100000 := by
  have h1 := applyList_normSq (rs.take n) q0 h
  refine ⟨h1, ?_⟩
  rw [h1, Real.sqrt_one]
  norm_num

/-- Witness for C3: one request about the y axis, checked after the
first step. -/
theorem c3_norm_invariant_wit :
    (applyList ⟨0, 1, 0, 0⟩ ([⟨yAxis, 3⟩].take 1)).normSq = 1 ∧
    abs (Real.sqrt (applyList ⟨0, 1, 0, 0⟩ ([⟨yAxis, 3⟩].take 1)).normSq - 1)
      ≤ 1 / 100000 :=
  c3_norm_invariant ⟨0, 1, 0, 0⟩ [⟨yAxis, 3⟩] 1 (by
    show (0 : ℝ) ^ 2 + 1 ^ 2 + 0 ^ 2 + 0 ^ 2 = 1
    norm_num)

/-! ## Claim C6 -/

/-- Claim C6 (confirmed, zero-axis branch modelled from spec 4.1): a
rotation request whose axis has zero length leaves the current
quaternion unchanged — the unchanged state is returned and no
ill-formed quaternion is produced (in particular a unit state stays
unit). -/
theorem c6_zero_axis (q : Quat) (a : Vec3) (θ : ℝ)
    (h : a.x = 0 ∧ a.y = 0 ∧ a.z = 0) :
    q.setRotation a θ = q ∧ (q.setRotation a θ).normSq = q.normSq := by
  have hm : a.magSq = 0 := by
    unfold Vec3.magSq
    rw [h.1, h.2.1, h.2.2]
    ring
  rw [setRotation_zero_axis q a θ hm]
  exact ⟨rfl, rfl⟩

/-- Witness for C6: the zero axis at a concrete state and angle. -/
theorem c6_zero_axis_wit :
    Quat.setRotation ⟨0, 1, 0, 0⟩ ⟨0, 0, 0⟩ 5 = ⟨0, 1, 0, 0⟩ ∧
    (Quat.setRotation ⟨0, 1, 0, 0⟩ ⟨0, 0, 0⟩ 5).normSq =
      (⟨0, 1, 0, 0⟩ : Quat).normSq :=
  c6_zero_axis ⟨0, 1, 0, 0⟩ ⟨0, 0, 0⟩ 5 ⟨rfl, rfl, rfl⟩

/-! ## Claim C4 -/

/-- Claim C4 (confirmed, reader modelled from spec 4.3): feeding the
reader the bytes of the stream split at arbitrary boundaries yields the
same lines, in the same order, as feeding all bytes in one call, as
long as every line (and the trailing partial line) stays below the
buffer ceiling; moreover after any number of polls the emitted lines
are exactly the complete lines of the bytes delivered so far — so no
line is emitted twice and none before all of its bytes arrived. -/
theorem c4_chunking (C : Nat) (chunks : List (List Char))
    (hl : ∀ l ∈ (splitSeg '\n' chunks.flatten).1, l.length < C)
    (hr : (splitSeg '\n' chunks.flatten).2.length < C) :
    (pollRun C [] chunks).1 = (pollRun C [] [chunks.flatten]).1 ∧
    ∀ k, (pollRun C [] (chunks.take k)).1 =
      (splitSeg '\n' (chunks.take k).flatten).1 := by
  have hmain := pollRun_eq C chunks [] (by simp) (by simpa using hl)
    (by simpa using hr)
  have hone : ([chunks.flatten] : List (List Char)).flatten = chunks.flatten := by
    simp
  have hsingle := pollRun_eq C [chunks.flatten] [] (by simp)
    (by simpa [hone] using hl) (by simpa [hone] using hr)
  constructor
  · rw [hmain, hsingle]
    simp
  · intro k
    have hsplit2 : (chunks.take k).flatten ++ (chunks.drop k).flatten
        = chunks.flatten := by
      rw [← List.flatten_append, List.take_append_drop]
    have happ := splitSeg_append '\n' (chunks.take k).flatten
      (chunks.drop k).flatten
    have hlk : ∀ l ∈ (splitSeg '\n' (chunks.take k).flatten).1, l.length < C := by
      intro l hml
      apply hl
      rw [← hsplit2, happ]
      exact List.mem_append_left _ hml
    have hrk : (splitSeg '\n' (chunks.take k).flatten).2.length < C := by
      apply tail_length_bound '\n' (chunks.take k).flatten
        (chunks.drop k).flatten C
      · rw [hsplit2]
        exact hl
      · rw [hsplit2]
        exact hr
    have hk := pollRun_eq C (chunks.take k) [] (by simp) (by simpa using hlk)
      (by simpa using hrk)
    rw [hk]
    simp

/-- Witness for C4: two chunks against the single delivery. -/
theorem c4_chunking_wit :
    (pollRun 10 [] [['a', '\n', 'b'], ['c', '\n', 'd']]).1 =
      (pollRun 10 [] [([['a', '\n', 'b'], ['c', '\n', 'd']] :
        List (List Char)).flatten]).1 :=
  (c4_chunking 10 [['a', '\n', 'b'], ['c', '\n', 'd']] (by decide) (by decide)).1

/-! ## Claim C5 -/

/-- Claim C5 (counterexample): the decode of an encode is not the
original pair within floating-point tolerance.  The encoder prints two
decimals, so the component 0.707 of the section 8 example quaternion is
transmitted as 0.71 and decodes to 0.71: the error 0.003 exceeds the
tolerance 1e-5 the spec names (and any floating-point epsilon). -/
theorem c5_cex :
    decodeLine ((splitSeg '\n'
        (transmit ⟨0, 707 / 1000, 0, 707 / 1000⟩ 12345)).1.headD []) =
      some ⟨0, 71 / 100, 0, 71 / 100, 12345⟩ ∧
    1 / 100000 < abs ((71 / 100 : ℚ) - 707 / 1000) := by
  constructor
  · rw [transmit_line]
    show decodeLine ('\x7b' ::
      (innerChars ⟨0, 707 / 1000, 0, 707 / 1000⟩ 12345 ++ ['\x7d', '\x0d'])) = _
    rw [decodeLine_transmit _ _ (by norm_num)]
    have h0 : roundVal 0 = 0 := by
      unfold roundVal centi
      rw [if_neg (by norm_num), abs_zero]
      norm_num
    have h7 : roundVal (707 / 1000) = 71 / 100 := by
      unfold roundVal centi
      rw [if_neg (by norm_num), abs_of_nonneg (by norm_num)]
      have harg : ((707 : ℚ) / 1000) * 100 + 1 / 2 = 712 / 10 := by norm_num
      rw [harg]
      have hfl : ⌊(712 : ℚ) / 10⌋₊ = 71 := by
        rw [Nat.floor_eq_iff (by norm_num)]
        norm_num
      rw [hfl]
      norm_num
    rw [h0, h7]
  · have h3 : (71 : ℚ) / 100 - 707 / 1000 = 3 / 1000 := by norm_num
    rw [h3, abs_of_pos (by norm_num)]
    norm_num

/-- Claim C5 (amended): decoding the reader line of an encoded frame
succeeds, reproduces the timestamp exactly, and reproduces each
quaternion component within the two-decimal quantization of the
encoder, error at most 1/200 = 0.005 — not within floating-point
tolerance. -/
theorem c5_roundtrip (q : WireQuat) (t : Nat) (ht : t < 2 ^ 32) :
    (splitSeg '\n' (transmit q t)).1 =
      ['\x7b' :: (innerChars q t ++ ['\x7d', '\x0d'])] ∧
    ∃ f : Frame,
      decodeLine ('\x7b' :: (innerChars q t ++ ['\x7d', '\x0d'])) = some f ∧
      f.time = t ∧
      abs (f.x - q.x) ≤ 1 / 200 ∧ abs (f.y - q.y) ≤ 1 / 200 ∧
      abs (f.z - q.z) ≤ 1 / 200 ∧ abs (f.w - q.w) ≤ 1 / 200 := by
  refine ⟨by rw [transmit_line], ⟨⟨roundVal q.x, roundVal q.y, roundVal q.z,
    roundVal q.w, t⟩, decodeLine_transmit q t ht, rfl, ?_, ?_, ?_, ?_⟩⟩
  · exact roundVal_close q.x
  · exact roundVal_close q.y
  · exact roundVal_close q.z
  · exact roundVal_close q.w

/-- Witness for C5: the amended round trip at a concrete frame. -/
theorem c5_roundtrip_wit :
    (splitSeg '\n' (transmit ⟨1, 0, 0, 0⟩ 777)).1 =
      ['\x7b' :: (innerChars ⟨1, 0, 0, 0⟩ 777 ++ ['\x7d', '\x0d'])] :=
  (c5_roundtrip ⟨1, 0, 0, 0⟩ 777 (by norm_num)).1

/-! ## Claim C7 -/

/-- Claim C7 (counterexample): a producer run whose elapsed time
crosses the 2^32 ms wrap emits a timestamp that decreases: with the
elapsed trace 4294967291 + 10 n (boot happened 2^32 - 5 ms before the
first transmit), the second frame carries timestamp 5, below the first
frame's 4294967291 — so the emitted timestamps of a run are not always
monotonically non-decreasing. -/
theorem c7_cex :
    ValidRun (fun n => 4294967291 + 10 * n) ∧
    wrap32 ((fun n => 4294967291 + 10 * n) 1) <
      wrap32 ((fun n => 4294967291 + 10 * n) 0) := by
  constructor
  · intro n
    simp only
    omega
  · decide

/-- Claim C7 (amended): the time field is the unsigned 32-bit
milliseconds-since-boot count reduced modulo 2^32; the underlying
elapsed count strictly increases from frame to frame (delay(10)), and
the emitted timestamps are non-decreasing between any two consecutive
frames that fall in the same 2^32 epoch — at a wrap the value drops,
a discontinuity the consumer must tolerate, not an error. -/
theorem c7_time_monotone (e : Nat → Nat) (h : ValidRun e) :
    (∀ n, wrap32 (e n) = e n % 2 ^ 32 ∧ wrap32 (e n) < 2 ^ 32) ∧
    (∀ n, e n < e (n + 1)) ∧
    (∀ n, e n / 2 ^ 32 = e (n + 1) / 2 ^ 32 →
      wrap32 (e n) ≤ wrap32 (e (n + 1))) := by
  refine ⟨fun n => ⟨rfl, Nat.mod_lt _ (by norm_num)⟩, fun n => ?_, fun n hq => ?_⟩
  · have := h n
    omega
  · have h3 : e n ≤ e (n + 1) := by
      have := h n
      omega
    unfold wrap32
    omega

/-- Witness for C7: a wrap-free run has non-decreasing timestamps. -/
theorem c7_time_monotone_wit :
    wrap32 ((fun n => 10 * n) 0) ≤ wrap32 ((fun n => 10 * n) 1) :=
  (c7_time_monotone (fun n => 10 * n)
    (fun n => by show 10 * n + 10 ≤ 10 * (n + 1); omega)).2.2 0 (by decide)

/-! ## Claim C8 -/

/-- Claim C8 (confirmed): every transmitted quaternion has x and z
exactly 0 and y^2 + w^2 exactly 1 in the real-number model (the claim
allows floating-point error), because every update rebuilds the
quaternion about the fixed unit axis (0, 1, 0). -/
theorem c8_plane_invariant (init : Quat) (n : Nat) (h : 1 ≤ n) :
    (frameQuat init n).x = 0 ∧ (frameQuat init n).z = 0 ∧
    (frameQuat init n).y ^ 2 + (frameQuat init n).w ^ 2 = 1 := by
  obtain ⟨m, rfl⟩ : ∃ m, n = m + 1 := ⟨n - 1, by omega⟩
  rw [frameQuat_succ, setRotation_apply _ _ _ (by rw [yAxis_magSq]; norm_num),
    yAxis_normed]
  refine ⟨?_, ?_, ?_⟩
  · show (0 : ℝ) * Real.sin (degToRad (iVal m) / 2) = 0
    ring
  · show (0 : ℝ) * Real.sin (degToRad (iVal m) / 2) = 0
    ring
  · show ((1 : ℝ) * Real.sin (degToRad (iVal m) / 2)) ^ 2 +
      Real.cos (degToRad (iVal m) / 2) ^ 2 = 1
    rw [one_mul]
    exact Real.sin_sq_add_cos_sq _

/-- Witness for C8: the first transmitted frame. -/
theorem c8_plane_invariant_wit :
    (frameQuat ⟨0, 1, 0, 0⟩ 1).x = 0 ∧ (frameQuat ⟨0, 1, 0, 0⟩ 1).z = 0 ∧
    (frameQuat ⟨0, 1, 0, 0⟩ 1).y ^ 2 + (frameQuat ⟨0, 1, 0, 0⟩ 1).w ^ 2 = 1 :=
  c8_plane_invariant ⟨0, 1, 0, 0⟩ 1 (by norm_num)

/-! ## Claim C9 -/

/-- Claim C9 (confirmed): the transmitted quaternion sequence does not
depend on the initial value of the global q1: setRotation overwrites
the state from the fixed axis and the tick counter before every
transmit, so two runs from any two initial quaternions emit identical
quaternions in every frame and the placeholder initial value is never
serialized. -/
theorem c9_init_independent (init1 init2 : Quat) (n : Nat) (h : 1 ≤ n) :
    frameQuat init1 n = frameQuat init2 n := by
  obtain ⟨m, rfl⟩ : ∃ m, n = m + 1 := ⟨n - 1, by omega⟩
  rw [frameQuat_succ, frameQuat_succ,
    setRotation_apply _ _ _ (by rw [yAxis_magSq]; norm_num),
    setRotation_apply _ _ _ (by rw [yAxis_magSq]; norm_num)]

/-- Witness for C9: the placeholder initial value against an arbitrary
other initial value, at the first frame. -/
theorem c9_init_independent_wit :
    frameQuat ⟨0, 1, 0, 0⟩ 1 = frameQuat ⟨1, 2, 3, 4⟩ 1 :=
  c9_init_independent ⟨0, 1, 0, 0⟩ ⟨1, 2, 3, 4⟩ 1 (by norm_num)

/-! ## Claim C10 -/

/-- Helper: frames whose angle counters agree carry the same
quaternion, whatever the previous state was. -/
theorem frameQuat_angle_eq (init : Quat) (a b : Nat) (h : iVal a = iVal b) :
    frameQuat init (a + 1) = frameQuat init (b + 1) := by
  rw [frameQuat_succ, frameQuat_succ, h,
    setRotation_apply _ _ _ (by rw [yAxis_magSq]; norm_num),
    setRotation_apply _ _ _ (by rw [yAxis_magSq]; norm_num)]

/-- Claim C10 (confirmed): the angle of the nth frame is (pi/180) * n
for every n up to 2^24; the float increment sticks at 2^24 (the 32-bit
float round-to-nearest-even of 2^24 + 1 is 2^24), and from frame 2^24
onward the transmitted orientation is constant. -/
theorem c10_saturation :
    (∀ n : Nat, 1 ≤ n → n ≤ 2 ^ 24 →
      frameAngle n = Real.pi / 180 * ((n : Nat) : ℝ)) ∧
    fl32 (2 ^ 24 + 1) = 2 ^ 24 ∧
    (∀ (init : Quat) (n : Nat), 2 ^ 24 ≤ n →
      frameQuat init n = frameQuat init (2 ^ 24)) := by
  refine ⟨?_, fl32_sat, ?_⟩
  · intro n h1 h2
    unfold frameAngle degToRad
    rw [iVal_eq]
    have hn : n - 1 + 1 = n := by omega
    rw [hn, min_eq_left h2]
  · intro init n h
    obtain ⟨m, rfl⟩ : ∃ m, n = m + 1 := ⟨n - 1, by omega⟩
    have heq : frameQuat init (m + 1) = frameQuat init (2 ^ 24 - 1 + 1) := by
      apply frameQuat_angle_eq
      rw [iVal_eq, iVal_eq]
      omega
    have h2 : 2 ^ 24 - 1 + 1 = 2 ^ 24 := by norm_num
    rw [h2] at heq
    exact heq

/-- Witness for C10: the first frame's angle, and a frame past the
saturation point equal to the frame at the saturation point. -/
theorem c10_saturation_wit :
    frameAngle 1 = Real.pi / 180 * ((1 : Nat) : ℝ) ∧
    frameQuat ⟨0, 1, 0, 0⟩ (2 ^ 24 + 7) = frameQuat ⟨0, 1, 0, 0⟩ (2 ^ 24) :=
  ⟨c10_saturation.1 1 (by norm_num) (by norm_num),
   c10_saturation.2.2 ⟨0, 1, 0, 0⟩ (2 ^ 24 + 7) (by norm_num)⟩

end RocketViewer
